import Mathlib

/-!
# Verification of the phone billing system's core data engine

This file embeds the core of the `c_phone_billing_system` repository
(`src/csv_to_avl_tree.c`) in Lean 4:

* C strings (digit strings, compared with `strcmp`) become `List Nat`
  (byte values), compared by a `strcmp` function mirroring the C library
  lexicographic byte comparison;
* the two structurally identical AVL trees of the source (`rate_node`,
  keyed by region code, and `user_node`, keyed by subscriber number) become
  one payload-polymorphic tree `AVLTree α`; the source's two insertion
  functions `add_rate_node` and `add_user_node` are textually identical in
  their tree logic (comparison, height update, the four rotation cases) and
  differ only in what the payload is and what happens on an equal key, so
  the embedding factors that logic into `avl_insert`, instantiated twice;
* `double` rates and prices become exact rationals `ℚ` (the claims under
  study concern the data-flow of the price values, not rounding);
* `size_t` counters become `Nat`;
* the doubly linked call list becomes `List Call` (the `previous` pointers
  are pure navigation and carry no extra information);
* `FILE` output in the report generators is abstracted to counting emitted
  lines/invoices, `fopen` failure to a boolean parameter, and `exit(1)` to
  a distinguished `fatalExit` outcome.
-/

/-! ## Definitions -/

/-- `strcmp` on C strings modelled as lists of (positive) byte values:
lexicographic comparison; a proper prefix is smaller because the
terminating NUL byte 0 is smaller than any string byte. Mirrors the
C library function as used throughout `csv_to_avl_tree.c`. -/
def strcmp : List Nat → List Nat → Ordering
  | [], [] => Ordering.eq
  | [], _ :: _ => Ordering.lt
  | _ :: _, [] => Ordering.gt
  | a :: as, b :: bs =>
    if a < b then Ordering.lt
    else if b < a then Ordering.gt
    else strcmp as bs

/-- The payload-polymorphic AVL tree. A `.node` carries the left child, the
key (`region_code` for the rate tree, `number` for the user tree), the
payload, the stored `height` field, and the right child; `.leaf` is the
C `NULL` pointer. -/
inductive AVLTree (α : Type) : Type where
  | leaf : AVLTree α
  | node (left : AVLTree α) (key : List Nat) (val : α) (height : Nat)
      (right : AVLTree α) : AVLTree α
deriving DecidableEq

namespace AVLTree

variable {α : Type}

/-- Stored height: `get_rate_node_height` / `get_user_node_height` in the C
(0 for `NULL`, otherwise the node's `height` field). -/
def stored_height : AVLTree α → Nat
  | .leaf => 0
  | .node _ _ _ h _ => h

/-- The true height of the tree (0 for the empty tree). The C code only
stores heights; this is the specification-level quantity the stored fields
are supposed to track. -/
def real_height : AVLTree α → Nat
  | .leaf => 0
  | .node l _ _ _ r => 1 + max (real_height l) (real_height r)

/-- Balance factor from the stored heights:
`get_rate_node_balance` / `get_user_node_balance`. -/
def balance_factor : AVLTree α → Int
  | .leaf => 0
  | .node l _ _ _ r => (stored_height l : Int) - (stored_height r : Int)

/-- Key of the root (used by the C rotation-case dispatch via
`node->left->region_code` and `node->right->region_code`; the `.leaf`
default is never consulted, since the dispatch only reads the key of a
child whose stored height forces it to be a `.node`). -/
def root_key : AVLTree α → List Nat
  | .leaf => []
  | .node _ k _ _ _ => k

/-- `right_rotate_rate` / `right_rotate_user`: rotate right around the left
child, then recompute the stored heights of the demoted node (first) and
the promoted left child (second), each as `1 + max` of its children's
stored heights, in the C's order. An input without a left child is never
passed in the source; the embedding returns it unchanged. -/
def right_rotate : AVLTree α → AVLTree α
  | .node (.node ll lk lv _ lr) k v _ r =>
    let demoted : AVLTree α :=
      .node lr k v (1 + max (stored_height lr) (stored_height r)) r
    .node ll lk lv (1 + max (stored_height ll) (stored_height demoted)) demoted
  | t => t

/-- `left_rotate_rate` / `left_rotate_user`: the mirror image of
`right_rotate`. -/
def left_rotate : AVLTree α → AVLTree α
  | .node l k v _ (.node rl rk rv _ rr) =>
    let demoted : AVLTree α :=
      .node l k v (1 + max (stored_height l) (stored_height rl)) rl
    .node demoted rk rv (1 + max (stored_height demoted) (stored_height rr)) rr
  | t => t

/-- The tail of `add_rate_node` / `add_user_node` after the recursive
insertion: update the node's stored height to
`1 + max(stored_height left, stored_height right)`, compute the balance
factor, and apply the four rotation cases, dispatching on the comparison
of the inserted key with the relevant child's key, exactly as in the C. -/
def rebalance_after_insert (t : AVLTree α) (key : List Nat) : AVLTree α :=
  match t with
  | .leaf => .leaf
  | .node l k v _ r =>
    let h2 := 1 + max (stored_height l) (stored_height r)
    let t2 : AVLTree α := .node l k v h2 r
    let balance := balance_factor t2
    if balance > 1 ∧ strcmp key (root_key l) = Ordering.lt then
      right_rotate t2
    else if balance < -1 ∧ strcmp key (root_key r) = Ordering.gt then
      left_rotate t2
    else if balance > 1 ∧ strcmp key (root_key l) = Ordering.gt then
      right_rotate (.node (left_rotate l) k v h2 r)
    else if balance < -1 ∧ strcmp key (root_key r) = Ordering.lt then
      left_rotate (.node l k v h2 (right_rotate r))
    else t2

/-- The common recursion of `add_rate_node` and `add_user_node`. `fresh`
is the payload a newly created node receives (`make_rate_node`'s rate,
respectively `make_user_node` followed by the first `insert_call` and
`calculate_user_stats`); `upd` is what happens to the payload of an
already present key (`add_rate_node` leaves the node untouched and only
reports the duplicate, so `upd = id`; `add_user_node` appends the call and
recomputes the stats). On an equal key the node is returned with its
structure and stored height unchanged; otherwise the insertion recurses
into the ordered side and the result is rebalanced. -/

def avl_insert (t : AVLTree α) (key : List Nat) (fresh : α) (upd : α → α) :
    AVLTree α :=
  match t with
  | .leaf => .node .leaf key fresh 1 .leaf
  | .node l k v h r =>
    match strcmp key k with
    | Ordering.eq => .node l k (upd v) h r
    | Ordering.lt =>
      rebalance_after_insert (.node (avl_insert l key fresh upd) k v h r) key
    | Ordering.gt =>
      rebalance_after_insert (.node l k v h (avl_insert r key fresh upd)) key

/-- Mirror of the branch structure of `avl_insert`: `true` exactly when the
insertion takes the equal-key branch (where `add_rate_node` prints
its duplicate-key error to `stderr`). -/
def insert_hits_existing (t : AVLTree α) (key : List Nat) : Bool :=
  match t with
  | .leaf => false
  | .node l k _ _ r =>
    match strcmp key k with
    | Ordering.eq => true
    | Ordering.lt => insert_hits_existing l key
    | Ordering.gt => insert_hits_existing r key

/-- In-order traversal (`traverse_rates_inorder` / `traverse_users_inorder`),
returning the visited (key, payload) pairs in visiting order. -/
def inorder : AVLTree α → List (List Nat × α)
  | .leaf => []
  | .node l k v _ r => inorder l ++ (k, v) :: inorder r

/-- The keys of the tree, in in-order. -/
def keys (t : AVLTree α) : List (List Nat) := (inorder t).map Prod.fst

/-- Key membership, following the tree structure. -/
def hasKey : AVLTree α → List Nat → Prop
  | .leaf, _ => False
  | .node l k _ _ r, x => hasKey l x ∨ x = k ∨ hasKey r x

/-- All keys of the tree satisfy `p`. -/
def allKeys (p : List Nat → Prop) : AVLTree α → Prop
  | .leaf => True
  | .node l k _ _ r => allKeys p l ∧ p k ∧ allKeys p r

/-- The binary-search-tree ordering invariant with respect to `strcmp`:
every key in the left subtree is strictly smaller than the node's key,
every key in the right subtree strictly greater, recursively. -/
def isBST : AVLTree α → Prop
  | .leaf => True
  | .node l k _ _ r =>
    allKeys (fun x => strcmp x k = Ordering.lt) l ∧
    allKeys (fun x => strcmp k x = Ordering.lt) r ∧
    isBST l ∧ isBST r

/-- Every stored height field equals `1 + max` of the children's true
heights (empty subtree height 0), recursively; equivalently every stored
height field agrees with the true height. -/
def heightsOK : AVLTree α → Prop
  | .leaf => True
  | .node l _ _ h r =>
    h = 1 + max (real_height l) (real_height r) ∧ heightsOK l ∧ heightsOK r

/-- The AVL balance invariant on true heights: at every node the two
children's heights differ by at most one. -/
def isBalanced : AVLTree α → Prop
  | .leaf => True
  | .node l _ _ _ r =>
    real_height l ≤ real_height r + 1 ∧ real_height r ≤ real_height l + 1 ∧
    isBalanced l ∧ isBalanced r

/-- Well-formedness: search order, correct stored heights, AVL balance. -/
def WF (t : AVLTree α) : Prop := isBST t ∧ heightsOK t ∧ isBalanced t

/-- Every payload stored in the tree satisfies `p`. -/
def allVals (p : α → Prop) : AVLTree α → Prop
  | .leaf => True
  | .node l _ v _ r => allVals p l ∧ p v ∧ allVals p r

/-- Shape of a subtree whose height grew by one during an insertion of
`key`: either it is the fresh singleton carrying `key` itself, or its root
strictly separates `key` into its taller side (the side `key` went to
exceeds the other side by exactly one). This is the invariant that makes
the source's rotation-case dispatch (comparing the inserted key against the
child's key) sound. -/
def GrowShape (key : List Nat) : AVLTree α → Prop
  | .leaf => False
  | .node a m _ _ b =>
    (m = key ∧ a = .leaf ∧ b = .leaf)
    ∨ (strcmp key m = Ordering.lt ∧ real_height a = real_height b + 1)
    ∨ (strcmp key m = Ordering.gt ∧ real_height b = real_height a + 1)

end AVLTree

/-- `make_rate_node`: a fresh rate node, stored height 1, no children. -/
def make_rate_node (region_code : List Nat) (rate : ℚ) : AVLTree ℚ :=
  AVLTree.node AVLTree.leaf region_code rate 1 AVLTree.leaf

/-- `add_rate_node`: AVL insertion into the rate tree. A new node carries
the rate; a duplicate region code leaves the node untouched (the C prints
an error and returns the node), hence `upd = id`. -/
def add_rate_node (node : AVLTree ℚ) (region_code : List Nat) (rate : ℚ) :
    AVLTree ℚ :=
  AVLTree.avl_insert node region_code rate id

/-- `search_rate_tree`: exact recursive binary search by `strcmp`, returning
the found node's (region code, rate) pair instead of a node pointer. -/
def search_rate_tree : AVLTree ℚ → List Nat → Option (List Nat × ℚ)
  | AVLTree.leaf, _ => none
  | AVLTree.node l k v _ r, region_code =>
    match strcmp region_code k with
    | Ordering.eq => some (k, v)
    | Ordering.lt => search_rate_tree l region_code
    | Ordering.gt => search_rate_tree r region_code

/-- `search_by_longest_region_code_match`: for attempt length 1 up to the
full length of the callee number, perform an exact lookup of the leading
segment of that length; a hit overwrites the current best match (no early
exit), so the match of the greatest hitting length is returned. -/
def search_by_longest_region_code_match (root : AVLTree ℚ)
    (callee_number : List Nat) : Option (List Nat × ℚ) :=
  (List.range callee_number.length).foldl
    (fun current_longest_match i =>
      match search_rate_tree root (callee_number.take (i + 1)) with
      | some new_attempt => some new_attempt
      | none => current_longest_match)
    none

/-- One call record (`user_call_list` node without the navigation
pointers). -/
structure Call where
  callee : List Nat
  duration : Nat
  year : Nat
  month : Nat
  day : Nat
  price : ℚ
deriving DecidableEq

/-- `get_call_node_datetime`: year times 100 plus month. (The C returns 0
for a NULL argument; the list model has no NULL nodes.) -/
def get_call_node_datetime (node : Call) : Nat := node.year * 100 + node.month

/-- The scanning loop of `insert_call`: walk the list; on finding a node
with a strictly greater datetime, link the new node directly before it; on
reaching the last node, append. The empty case is unreachable (the loop is
entered with a non-NULL current pointer); it models the C falling out of
the loop, which leaves the list unchanged. -/
def insert_call_scan (new_node : Call) : List Call → List Call
  | [] => []
  | current :: rest =>
    if get_call_node_datetime new_node < get_call_node_datetime current then
      new_node :: current :: rest
    else
      match rest with
      | [] => [current, new_node]
      | _ :: _ => current :: insert_call_scan new_node rest

/-- The list-linking part of `insert_call`: an empty list is initialised
with the new node as sole element; a new node whose datetime is less than
or equal to the head's is linked before the head; otherwise the scan loop
runs. -/
def insert_call_list (new_node : Call) (head : List Call) : List Call :=
  match head with
  | [] => [new_node]
  | hd :: rest =>
    if get_call_node_datetime new_node ≤ get_call_node_datetime hd then
      new_node :: hd :: rest
    else
      insert_call_scan new_node (hd :: rest)

/-- Observable outcome of `insert_call`: the C return status, whether the
no-rate-match warning was printed to stderr, and the updated list. Every
path inside the non-empty-list branch ends in `return 1`; the empty-list
initialization branch stores the node but does not return, falling through
to the trailing `return 0` (annotated "Shouldn't happen" in the source),
so a first call on an empty list is stored yet reported with status 0. -/
structure InsertCallResult where
  status : Nat
  warned_no_match : Bool
  list : List Call
deriving DecidableEq

/-- `insert_call`: price the call by the longest region-code match (zero
rate and a stderr warning when no match), build the node, and link it into
the list at its chronological position. The status mirrors the C's actual
returns: 1 from the head-insert and scan paths (list non-empty), 0 from
the fall-through that the empty-list initialization branch reaches. -/
def insert_call (head : List Call) (callee_number : List Nat)
    (duration year month day : Nat) (rate_root : AVLTree ℚ) :
    InsertCallResult :=
  let longest_rate_match :=
    search_by_longest_region_code_match rate_root callee_number
  let price : ℚ :=
    match longest_rate_match with
    | none => 0
    | some m => m.2 * duration
  let new_node : Call :=
    { callee := callee_number
      duration := duration
      year := year
      month := month
      day := day
      price := price }
  { status :=
      match head with
      | [] => 0
      | _ :: _ => 1
    warned_no_match := longest_rate_match.isNone
    list := insert_call_list new_node head }

/-- The spec's statement of the insertion position: empty list, head
insertion on a less-or-equal key, otherwise directly before the first node
with a strictly greater key (i.e. after the maximal leading run of nodes
with key less than or equal to the new key), or at the tail when no such
node exists. Stated from the spec for comparison with `insert_call_list`. -/
def insert_call_position_spec (new_node : Call) (head : List Call) :
    List Call :=
  match head with
  | [] => [new_node]
  | hd :: rest =>
    if get_call_node_datetime new_node ≤ get_call_node_datetime hd then
      new_node :: hd :: rest
    else
      (hd :: rest).takeWhile
          (fun c => decide
            (get_call_node_datetime c ≤ get_call_node_datetime new_node))
        ++ new_node ::
          (hd :: rest).dropWhile
            (fun c => decide
              (get_call_node_datetime c ≤ get_call_node_datetime new_node))

/-- Payload of a `user_node`: the call history and the three cached
totals. The subscriber number itself is the tree key. -/
structure UserData where
  call_list : List Call
  total_bill : ℚ
  total_call_duration : Nat
  total_call_number : Nat
deriving DecidableEq

/-- `make_user_node`: totals zeroed, empty call list. -/
def make_user_node : UserData :=
  { call_list := []
    total_bill := 0
    total_call_duration := 0
    total_call_number := 0 }

/-- `calculate_user_stats`: reset the three totals to zero, then walk the
full call list once, accumulating price, duration and a count. -/
def calculate_user_stats (user : UserData) : UserData :=
  let folded := user.call_list.foldl
    (fun (acc : ℚ × Nat × Nat) c =>
      (acc.1 + c.price, acc.2.1 + c.duration, acc.2.2 + 1))
    (0, 0, 0)
  { user with
    total_bill := folded.1
    total_call_duration := folded.2.1
    total_call_number := folded.2.2 }

/-- `add_user_node`: AVL insertion keyed by the caller number. A new
subscriber gets `make_user_node`, the first call inserted, and the stats
recomputed; an existing subscriber gets the call inserted into their list
and the stats recomputed, with the tree untouched. -/
def add_user_node (node : AVLTree UserData)
    (caller_number callee_number : List Nat)
    (duration year month day : Nat) (rate_root : AVLTree ℚ) :
    AVLTree UserData :=
  AVLTree.avl_insert node caller_number
    (calculate_user_stats
      { make_user_node with
        call_list :=
          (insert_call [] callee_number duration year month day
            rate_root).list })
    (fun user => calculate_user_stats
      { user with
        call_list :=
          (insert_call user.call_list callee_number duration year month day
            rate_root).list })

/-- The cached totals agree with what the stored call history sums to. -/
def stats_consistent (user : UserData) : Prop :=
  user.total_bill = (user.call_list.map Call.price).sum ∧
  user.total_call_duration = (user.call_list.map Call.duration).sum ∧
  user.total_call_number = user.call_list.length

/-- One validated CSV call record as handed to `add_user_node` by the
parser. -/
structure CallRecord where
  caller : List Nat
  callee : List Nat
  duration : Nat
  year : Nat
  month : Nat
  day : Nat
deriving DecidableEq

/-- A rate tree built by a sequence of `add_rate_node` insertions starting
from the empty tree. -/
def build_rate_tree (entries : List (List Nat × ℚ)) : AVLTree ℚ :=
  entries.foldl (fun t e => add_rate_node t e.1 e.2) AVLTree.leaf

/-- A user tree built by a sequence of `add_user_node` insertions starting
from the empty tree. -/
def build_user_tree (rate_root : AVLTree ℚ) (records : List CallRecord) :
    AVLTree UserData :=
  records.foldl
    (fun t c => add_user_node t c.caller c.callee c.duration c.year
      c.month c.day rate_root)
    AVLTree.leaf

/-- Observable outcome of a report generator: `fatalExit` models `exit(1)`;
`returned` models a normal return, carrying whether the no-calls warning
was printed to stderr and how many units (CDR lines, respectively monthly
invoices) were written. -/
inductive ReportOutcome : Type where
  | fatalExit : ReportOutcome
  | returned (warned_no_calls : Bool) (emitted : Nat) : ReportOutcome
deriving DecidableEq

/-- `generate_monthly_cdr_files`, with the file system abstracted to a
single `open_ok` flag and the written lines to a count. On an empty call
history the outer loop is skipped and the function prints
"Cannot generate monthly bills for user with no calls" to stderr and
returns normally; on a non-empty history it writes one line per call
(returning from inside the loop, without that warning), and a failed
`fopen` aborts the program via `exit(1)`. -/
def generate_monthly_cdr_files (open_ok : Bool) (calls : List Call) :
    ReportOutcome :=
  match calls with
  | [] => ReportOutcome.returned true 0
  | c :: cs =>
    if open_ok then ReportOutcome.returned false (c :: cs).length
    else ReportOutcome.fatalExit

/-- `generate_monthly_bill_files`, abstracted the same way: the history is
consumed one month-run at a time; a run whose month is outside 1..12 hits
the `default` arm of the month-name switch and aborts via `exit(1)`; a
failed `fopen` only skips that invoice (the C `continue`s); an empty
history returns normally with no warning and nothing written. -/
def generate_monthly_bill_files (open_ok : Bool) (calls : List Call) :
    ReportOutcome :=
  match calls with
  | [] => ReportOutcome.returned false 0
  | c :: cs =>
    if (get_call_node_datetime c % 100) = 0 ∨
        12 < (get_call_node_datetime c % 100) then
      ReportOutcome.fatalExit
    else
      match generate_monthly_bill_files open_ok
          (cs.dropWhile
            (fun x => get_call_node_datetime x == get_call_node_datetime c)) with
      | ReportOutcome.fatalExit => ReportOutcome.fatalExit
      | ReportOutcome.returned w n =>
        ReportOutcome.returned w (n + (if open_ok then 1 else 0))
termination_by calls.length
decreasing_by
  simp only [List.length_cons]
  exact Nat.lt_succ_of_le (List.Sublist.length_le (List.dropWhile_sublist _))

def str1 : List Nat := [49]

def str12 : List Nat := [49, 50]

def str123 : List Nat := [49, 50, 51]

def str123456789 : List Nat := [49, 50, 51, 52, 53, 54, 55, 56, 57]

def str44 : List Nat := [52, 52]

/-- The spec's worked longest-prefix catalog
{"1": 0.10, "12": 0.05, "123": 0.02}, built by three insertions. -/
def example_rate_tree : AVLTree ℚ :=
  build_rate_tree [(str1, 1/10), (str12, 1/20), (str123, 1/50)]

/-- The chronological ordering invariant of a call history: adjacent
datetimes are non-decreasing from head to tail. -/
def chronological (l : List Call) : Prop :=
  List.Chain'
    (fun a b => get_call_node_datetime a ≤ get_call_node_datetime b) l

/-- The spec's reading of the match loop: the fold over attempt indices,
abstracted over the per-length attempt `g` (`g j` is the lookup of the
leading segment of length `j`). `search_by_longest_region_code_match`
is definitionally `last_hit` of its lookup. -/
def last_hit {β : Type} (g : Nat → Option β) (n : Nat) : Option β :=
  (List.range n).foldl
    (fun best i =>
      match g (i + 1) with
      | some x => some x
      | none => best)
    none

/-- A call history built by a sequence of `insert_call` operations starting
from the empty list. -/
def build_call_list (rate_root : AVLTree ℚ) (records : List CallRecord) :
    List Call :=
  records.foldl
    (fun l c =>
      (insert_call l c.callee c.duration c.year c.month c.day rate_root).list)
    []

/-- Example calls for the tie-break witnesses: `example_call_a` and
`example_call_b` share the chronological key 2024×100+3; `example_call_x`
has the earlier key 2024×100+2. -/
def example_call_a : Call :=
  { callee := str1
    duration := 60
    year := 2024
    month := 3
    day := 5
    price := 0 }

def example_call_b : Call :=
  { callee := str12
    duration := 30
    year := 2024
    month := 3
    day := 6
    price := 0 }

def example_call_x : Call :=
  { callee := str123
    duration := 10
    year := 2024
    month := 2
    day := 1
    price := 0 }

/-- A user with stale totals and its zeroed twin, sharing one call list. -/
def example_user_stale : UserData :=
  { call_list := [example_call_a]
    total_bill := 5
    total_call_duration := 6
    total_call_number := 7 }

def example_user_clean : UserData :=
  { call_list := [example_call_a]
    total_bill := 0
    total_call_duration := 0
    total_call_number := 0 }

/-! ## Theorems -/

theorem strcmp_self (a : List Nat) : strcmp a a = Ordering.eq := by
  induction a with
  | nil => rfl
  | cons x xs ih => simp [strcmp, ih]

theorem strcmp_eq_iff {a b : List Nat} : strcmp a b = Ordering.eq ↔ a = b := by
  constructor
  · intro h
    induction a generalizing b with
    | nil => cases b with
      | nil => rfl
      | cons y ys => simp [strcmp] at h
    | cons x xs ih =>
      cases b with
      | nil => simp [strcmp] at h
      | cons y ys =>
        by_cases hxy : x < y
        · simp [strcmp, hxy] at h
        · by_cases hyx : y < x
          · simp [strcmp, hxy, hyx] at h
          · have hx : x = y := Nat.le_antisymm (Nat.le_of_not_lt hyx) (Nat.le_of_not_lt hxy)
            simp [strcmp, hxy, hyx] at h
            simp [hx, ih h]
  · intro h; subst h; exact strcmp_self a

theorem strcmp_lt_iff_gt {a b : List Nat} :
    strcmp a b = Ordering.lt ↔ strcmp b a = Ordering.gt := by
  induction a generalizing b with
  | nil => cases b <;> simp [strcmp]
  | cons x xs ih =>
    cases b with
    | nil => simp [strcmp]
    | cons y ys =>
      by_cases hxy : x < y
      · have : ¬ y < x := Nat.lt_asymm hxy
        simp [strcmp, hxy, this]
      · by_cases hyx : y < x
        · simp [strcmp, hxy, hyx]
        · simp [strcmp, hxy, hyx, ih]

theorem strcmp_trans {a b c : List Nat}
    (hab : strcmp a b = Ordering.lt) (hbc : strcmp b c = Ordering.lt) :
    strcmp a c = Ordering.lt := by
  induction a generalizing b c with
  | nil =>
    cases c with
    | nil =>
      cases b with
      | nil => exact hab
      | cons y ys => simp [strcmp] at hbc
    | cons z zs => simp [strcmp]
  | cons x xs ih =>
    cases b with
    | nil => simp [strcmp] at hab
    | cons y ys =>
      cases c with
      | nil => simp [strcmp] at hbc
      | cons z zs =>
        by_cases hxy : x < y
        · by_cases hyz : y < z
          · simp [strcmp, Nat.lt_trans hxy hyz]
          · by_cases hzy : z < y
            · simp [strcmp, hyz, hzy] at hbc
            · have : y = z := Nat.le_antisymm (Nat.le_of_not_lt hzy) (Nat.le_of_not_lt hyz)
              subst this
              simp [strcmp, hxy]
        · by_cases hyx : y < x
          · simp [strcmp, hxy, hyx] at hab
          · have hx : x = y := Nat.le_antisymm (Nat.le_of_not_lt hyx) (Nat.le_of_not_lt hxy)
            subst hx
            simp [strcmp, Nat.lt_irrefl] at hab
            by_cases hyz : x < z
            · simp [strcmp, hyz]
            · by_cases hzy : z < x
              · simp [strcmp, hyz, hzy] at hbc
              · have : x = z := Nat.le_antisymm (Nat.le_of_not_lt hzy) (Nat.le_of_not_lt hyz)
                subst this
                simp [strcmp, Nat.lt_irrefl] at hbc ⊢
                exact ih hab hbc

theorem strcmp_ne_of_lt {a b : List Nat} (h : strcmp a b = Ordering.lt) : a ≠ b := by
  intro hab; subst hab; rw [strcmp_self] at h; cases h

namespace AVLTree

variable {α : Type}

theorem stored_height_node (l : AVLTree α) (k : List Nat) (v : α) (h : Nat)
    (r : AVLTree α) : stored_height (.node l k v h r) = h := rfl

theorem real_height_node (l : AVLTree α) (k : List Nat) (v : α) (h : Nat)
    (r : AVLTree α) :
    real_height (.node l k v h r) = 1 + max (real_height l) (real_height r) := rfl

theorem stored_eq_real {t : AVLTree α} (h : heightsOK t) :
    stored_height t = real_height t := by
  cases t with
  | leaf => rfl
  | node l k v ht r => exact h.1

theorem hasKey_iff_mem_keys {t : AVLTree α} {x : List Nat} :
    hasKey t x ↔ x ∈ keys t := by
  induction t with
  | leaf => simp [hasKey, keys, inorder]
  | node l k v h r ihl ihr => simp [hasKey, keys, inorder, ihl, ihr]

theorem allKeys_iff {p : List Nat → Prop} {t : AVLTree α} :
    allKeys p t ↔ ∀ x, hasKey t x → p x := by
  induction t with
  | leaf => simp [allKeys, hasKey]
  | node l k v h r ihl ihr =>
    simp only [allKeys, hasKey, ihl, ihr]
    constructor
    · rintro ⟨hl, hk, hr⟩ x (hx | rfl | hx)
      · exact hl x hx
      · exact hk
      · exact hr x hx
    · intro hall
      exact ⟨fun x hx => hall x (Or.inl hx), hall k (Or.inr (Or.inl rfl)),
        fun x hx => hall x (Or.inr (Or.inr hx))⟩

theorem inorder_right_rotate (t : AVLTree α) :
    inorder (right_rotate t) = inorder t := by
  match t with
  | .leaf => rfl
  | .node .leaf k v h r => rfl
  | .node (.node ll lk lv lh lr) k v h r =>
    simp [right_rotate, inorder, List.append_assoc]

theorem inorder_left_rotate (t : AVLTree α) :
    inorder (left_rotate t) = inorder t := by
  match t with
  | .leaf => rfl
  | .node l k v h .leaf => rfl
  | .node l k v h (.node rl rk rv rh rr) =>
    simp [left_rotate, inorder, List.append_assoc]

theorem inorder_rebalance (t : AVLTree α) (key : List Nat) :
    inorder (rebalance_after_insert t key) = inorder t := by
  match t with
  | .leaf => rfl
  | .node l k v h r =>
    simp only [rebalance_after_insert]
    split_ifs <;>
      simp [inorder_right_rotate, inorder_left_rotate, inorder]

theorem hasKey_of_inorder_eq {t u : AVLTree α} (h : inorder t = inorder u)
    (x : List Nat) : hasKey t x ↔ hasKey u x := by
  rw [hasKey_iff_mem_keys, hasKey_iff_mem_keys, keys, keys, h]

/-- Unfolding lemma: with no over-imbalance, `rebalance_after_insert` only
rewrites the stored height. -/
theorem rebalance_no_rotation (l : AVLTree α) (k : List Nat) (v : α) (h : Nat)
    (r : AVLTree α) (key : List Nat)
    (h1 : stored_height l ≤ stored_height r + 1)
    (h2 : stored_height r ≤ stored_height l + 1) :
    rebalance_after_insert (.node l k v h r) key
      = .node l k v (1 + max (stored_height l) (stored_height r)) r := by
  simp only [rebalance_after_insert, balance_factor]
  rw [if_neg, if_neg, if_neg, if_neg]
  all_goals rintro ⟨hb, -⟩; omega

/-- Unfolding lemma: the left-left rotation case. -/
theorem rebalance_case_LL (l : AVLTree α) (k : List Nat) (v : α) (h : Nat)
    (r : AVLTree α) (key : List Nat)
    (hbal : stored_height l = stored_height r + 2)
    (hlt : strcmp key (root_key l) = Ordering.lt) :
    rebalance_after_insert (.node l k v h r) key
      = right_rotate (.node l k v (1 + max (stored_height l) (stored_height r)) r) := by
  simp only [rebalance_after_insert, balance_factor]
  rw [if_pos ⟨by omega, hlt⟩]

/-- Unfolding lemma: the left-right double-rotation case. -/
theorem rebalance_case_LR (l : AVLTree α) (k : List Nat) (v : α) (h : Nat)
    (r : AVLTree α) (key : List Nat)
    (hbal : stored_height l = stored_height r + 2)
    (hgt : strcmp key (root_key l) = Ordering.gt) :
    rebalance_after_insert (.node l k v h r) key
      = right_rotate (.node (left_rotate l) k v
          (1 + max (stored_height l) (stored_height r)) r) := by
  simp only [rebalance_after_insert, balance_factor]
  rw [if_neg, if_neg, if_pos ⟨by omega, hgt⟩]
  · rintro ⟨hb, -⟩; omega
  · rintro ⟨-, hx⟩; rw [hgt] at hx; exact absurd hx (by decide)

/-- Unfolding lemma: the right-right rotation case. -/
theorem rebalance_case_RR (l : AVLTree α) (k : List Nat) (v : α) (h : Nat)
    (r : AVLTree α) (key : List Nat)
    (hbal : stored_height r = stored_height l + 2)
    (hgt : strcmp key (root_key r) = Ordering.gt) :
    rebalance_after_insert (.node l k v h r) key
      = left_rotate (.node l k v (1 + max (stored_height l) (stored_height r)) r) := by
  simp only [rebalance_after_insert, balance_factor]
  rw [if_neg, if_pos ⟨by omega, hgt⟩]
  rintro ⟨hb, -⟩; omega

/-- Unfolding lemma: the right-left double-rotation case. -/
theorem rebalance_case_RL (l : AVLTree α) (k : List Nat) (v : α) (h : Nat)
    (r : AVLTree α) (key : List Nat)
    (hbal : stored_height r = stored_height l + 2)
    (hlt : strcmp key (root_key r) = Ordering.lt) :
    rebalance_after_insert (.node l k v h r) key
      = left_rotate (.node l k v
          (1 + max (stored_height l) (stored_height r)) (right_rotate r)) := by
  simp only [rebalance_after_insert, balance_factor]
  rw [if_neg, if_neg, if_neg, if_pos ⟨by omega, hlt⟩]
  · rintro ⟨hb, -⟩; omega
  · rintro ⟨-, hx⟩; rw [hlt] at hx; exact absurd hx (by decide)
  · rintro ⟨hb, -⟩; omega

/-- The fully applied form of a right rotation. -/
theorem right_rotate_node (a : AVLTree α) (m : List Nat) (mv : α) (hm : Nat)
    (b : AVLTree α) (k : List Nat) (v : α) (h : Nat) (r : AVLTree α) :
    right_rotate (.node (.node a m mv hm b) k v h r)
      = .node a m mv
          (1 + max (stored_height a) (1 + max (stored_height b) (stored_height r)))
          (.node b k v (1 + max (stored_height b) (stored_height r)) r) := rfl

/-- The fully applied form of a left rotation. -/
theorem left_rotate_node (l : AVLTree α) (k : List Nat) (v : α) (h : Nat)
    (a : AVLTree α) (m : List Nat) (mv : α) (hm : Nat) (b : AVLTree α) :
    left_rotate (.node l k v h (.node a m mv hm b))
      = .node (.node l k v (1 + max (stored_height l) (stored_height a)) a) m mv
          (1 + max (1 + max (stored_height l) (stored_height a)) (stored_height b))
          b := rfl

theorem strcmp_not_lt_self (a : List Nat) : ¬ strcmp a a = Ordering.lt := by
  rw [strcmp_self]; intro hx; cases hx

theorem mem_dup {L K R : Prop} : L ∨ K ∨ R ↔ (L ∨ K ∨ R) ∨ K := by tauto

theorem mem_shuffle2 {L2 K R L KEY : Prop} (hx : L2 ↔ L ∨ KEY) :
    L2 ∨ K ∨ R ↔ (L ∨ K ∨ R) ∨ KEY := by tauto

theorem mem_shuffle {A M B K R L KEY : Prop} (hx : A ∨ M ∨ B ↔ L ∨ KEY) :
    A ∨ M ∨ (B ∨ K ∨ R) ↔ (L ∨ K ∨ R) ∨ KEY := by tauto

theorem mem_shuffle3 {A M BA BM BB K R L KEY : Prop}
    (hx : A ∨ M ∨ (BA ∨ BM ∨ BB) ↔ L ∨ KEY) :
    (A ∨ M ∨ BA) ∨ BM ∨ (BB ∨ K ∨ R) ↔ (L ∨ K ∨ R) ∨ KEY := by tauto

theorem mem_shuffle2r {R2 K L R KEY : Prop} (hx : R2 ↔ R ∨ KEY) :
    L ∨ K ∨ R2 ↔ (L ∨ K ∨ R) ∨ KEY := by tauto

theorem mem_shuffler {A M B K L R KEY : Prop} (hx : A ∨ M ∨ B ↔ R ∨ KEY) :
    (L ∨ K ∨ A) ∨ M ∨ B ↔ (L ∨ K ∨ R) ∨ KEY := by tauto

theorem mem_shuffle3r {AA AN AB M B K L R KEY : Prop}
    (hx : (AA ∨ AN ∨ AB) ∨ M ∨ B ↔ R ∨ KEY) :
    (L ∨ K ∨ AA) ∨ AN ∨ (AB ∨ M ∨ B) ↔ (L ∨ K ∨ R) ∨ KEY := by tauto

/-- Soundness of the common insertion `avl_insert` (the shared body of
`add_rate_node` and `add_user_node`): starting from a well-formed tree it
preserves well-formedness (search order, stored heights, AVL balance),
changes the height by at most one, does not change the height at all when
the key was already present, satisfies the `GrowShape` invariant when the
height grew, and its key set is the old key set plus the inserted key. -/
theorem avl_insert_sound (key : List Nat) (fresh : α) (upd : α → α) :
    ∀ t : AVLTree α, WF t →
      WF (avl_insert t key fresh upd) ∧
      real_height t ≤ real_height (avl_insert t key fresh upd) ∧
      real_height (avl_insert t key fresh upd) ≤ real_height t + 1 ∧
      (hasKey t key → real_height (avl_insert t key fresh upd) = real_height t) ∧
      (¬ hasKey t key → real_height (avl_insert t key fresh upd) = real_height t + 1 →
        GrowShape key (avl_insert t key fresh upd)) ∧
      (∀ x, hasKey (avl_insert t key fresh upd) x ↔ hasKey t x ∨ x = key) := by
  intro t
  induction t with
  | leaf =>
    intro _
    refine ⟨⟨⟨trivial, trivial, trivial, trivial⟩, ⟨rfl, trivial, trivial⟩,
      by simp [avl_insert, isBalanced, real_height]⟩, ?_, ?_, ?_, ?_, ?_⟩
    · simp [avl_insert, real_height]
    · simp [avl_insert, real_height]
    · intro hk; exact absurd hk (by simp [hasKey])
    · intro _ _; simp [avl_insert, GrowShape]
    · intro x; simp [avl_insert, hasKey]
  | node l k v h r ihl ihr =>
    intro hwf
    simp only [WF, isBST, heightsOK, isBalanced] at hwf
    obtain ⟨⟨bstKL, bstKR, bstl, bstr⟩, ⟨hh, hokl, hokr⟩, bal1, bal2, ball, balr⟩ := hwf
    have sr : stored_height r = real_height r := stored_eq_real hokr
    have sl : stored_height l = real_height l := stored_eq_real hokl
    cases hc : strcmp key k with
    | eq =>
      clear ihl ihr
      have hkeq : key = k := strcmp_eq_iff.mp hc
      have hins : avl_insert (AVLTree.node l k v h r) key fresh upd
          = AVLTree.node l k (upd v) h r := by
        simp only [avl_insert, hc]
      rw [hins]
      clear hins
      refine ⟨⟨⟨bstKL, bstKR, bstl, bstr⟩, ⟨hh, hokl, hokr⟩, bal1, bal2, ball, balr⟩,
        ?_, ?_, ?_, ?_, ?_⟩
      · simp only [real_height]; omega
      · simp only [real_height]; omega
      · intro _; simp only [real_height]
      · intro hnk _
        exact absurd (Or.inr (Or.inl hkeq)) hnk
      · intro x
        subst hkeq
        simp only [hasKey]
        exact mem_dup
    | lt =>
      obtain ⟨wfl2, hge, hle, hmemh, hgs, hmem⟩ := ihl ⟨bstl, hokl, ball⟩
      clear ihl ihr
      have hins : avl_insert (AVLTree.node l k v h r) key fresh upd
          = rebalance_after_insert
              (.node (avl_insert l key fresh upd) k v h r) key := by
        simp only [avl_insert, hc]
      rw [hins]
      clear hins
      generalize hL : avl_insert l key fresh upd = l2 at wfl2 hge hle hmemh hgs hmem ⊢
      obtain ⟨bstl2, hokl2, ball2⟩ := wfl2
      have sl2 : stored_height l2 = real_height l2 := stored_eq_real hokl2
      have hkne : key ≠ k := strcmp_ne_of_lt hc
      have hkr : ¬ hasKey r key := fun hx =>
        strcmp_not_lt_self key (strcmp_trans hc (allKeys_iff.mp bstKR key hx))
      have hl2k : ∀ x, hasKey l2 x → strcmp x k = Ordering.lt := by
        intro x hx
        rcases (hmem x).mp hx with h1 | rfl
        · exact allKeys_iff.mp bstKL x h1
        · exact hc
      have hcase : real_height l2 = real_height l ∨
          real_height l2 = real_height l + 1 := by omega
      rcases hcase with hA | hB
      · -- the left subtree kept its height: no rotation
        rw [rebalance_no_rotation l2 k v h r key (by omega) (by omega), sl2, sr]
        refine ⟨⟨⟨allKeys_iff.mpr hl2k, bstKR, bstl2, bstr⟩,
          ⟨rfl, hokl2, hokr⟩, by omega, by omega, ball2, balr⟩, ?_, ?_, ?_, ?_, ?_⟩
        · simp only [real_height]; omega
        · simp only [real_height]; omega
        · intro _; simp only [real_height]; omega
        · intro _ hgr; exfalso; simp only [real_height] at hgr; omega
        · intro x
          have hx := hmem x
          simp only [hasKey] at hx ⊢
          exact mem_shuffle2 hx
      · -- the left subtree grew
        have hknl : ¬ hasKey l key := fun hx => by have := hmemh hx; omega
        have hknt : ¬ hasKey (AVLTree.node l k v h r) key := by
          simp only [hasKey]
          push_neg
          exact ⟨hknl, hkne, hkr⟩
        rcases (by omega : real_height l ≤ real_height r ∨
            real_height l = real_height r + 1) with hB1 | hB2
        · -- still within tolerance: no rotation
          rw [rebalance_no_rotation l2 k v h r key (by omega) (by omega), sl2, sr]
          refine ⟨⟨⟨allKeys_iff.mpr hl2k, bstKR, bstl2, bstr⟩,
            ⟨rfl, hokl2, hokr⟩, by omega, by omega, ball2, balr⟩, ?_, ?_, ?_, ?_, ?_⟩
          · simp only [real_height]; omega
          · simp only [real_height]; omega
          · intro hkt; exact absurd hkt hknt
          · intro _ hgr
            simp only [real_height] at hgr
            simp only [GrowShape]
            exact Or.inr (Or.inl ⟨hc, by omega⟩)
          · intro x
            have hx := hmem x
            simp only [hasKey] at hx ⊢
            exact mem_shuffle2 hx
        · -- balance factor reaches two: a rotation fires
          have hgsl : GrowShape key l2 := hgs hknl hB
          cases l2 with
          | leaf => simp [GrowShape] at hgsl
          | node a m mv am b =>
            simp only [real_height] at hB
            simp only [GrowShape] at hgsl
            obtain ⟨bstA, bstB, bsta, bstb⟩ := bstl2
            obtain ⟨ham, hoka, hokb⟩ := hokl2
            obtain ⟨balA1, balA2, bala, balb⟩ := ball2
            have hmemA : ∀ x, hasKey a x → strcmp x k = Ordering.lt :=
              fun x hx => hl2k x (Or.inl hx)
            have hmk : strcmp m k = Ordering.lt := hl2k m (Or.inr (Or.inl rfl))
            have hmemB : ∀ x, hasKey b x → strcmp x k = Ordering.lt :=
              fun x hx => hl2k x (Or.inr (Or.inr hx))
            have sa : stored_height a = real_height a := stored_eq_real hoka
            have sb : stored_height b = real_height b := stored_eq_real hokb
            rcases hgsl with ⟨hmky, rfl, rfl⟩ | ⟨hkm, hab⟩ | ⟨hkm, hba⟩
            · exfalso; simp only [real_height] at hB; omega
            · -- left-left: single right rotation
              rw [rebalance_case_LL (AVLTree.node a m mv am b) k v h r key
                  (by simp only [stored_height_node]; rw [sr]; omega) hkm,
                right_rotate_node]
              rw [sa, sb, sr]
              refine ⟨⟨⟨bstA, ?_, bsta, ⟨allKeys_iff.mpr hmemB, bstKR, bstb, bstr⟩⟩,
                ⟨by simp [real_height], hoka, by simp [real_height], hokb, hokr⟩,
                ?_, ?_, bala, by omega, by omega,
                balb, balr⟩, ?_, ?_, ?_, ?_, ?_⟩
              · refine allKeys_iff.mpr ?_
                intro x hx
                simp only [hasKey] at hx
                rcases hx with hx | rfl | hx
                · exact allKeys_iff.mp bstB x hx
                · exact hmk
                · exact strcmp_trans hmk (allKeys_iff.mp bstKR x hx)
              · simp only [real_height]; omega
              · simp only [real_height]; omega
              · simp only [real_height]; omega
              · simp only [real_height]; omega
              · intro hkt; exact absurd hkt hknt
              · intro _ hgr; exfalso; simp only [real_height] at hgr; omega
              · intro x
                have hx := hmem x
                simp only [hasKey] at hx ⊢
                exact mem_shuffle hx
            · -- left-right: double rotation
              cases b with
              | leaf => exfalso; simp only [real_height] at hba; omega
              | node ba bm bv bm2 bb =>
                simp only [real_height] at hba hB ham balA1 balA2
                obtain ⟨bstBA, hmbm, bstBB⟩ := bstB
                obtain ⟨bstBAlt, bstBBgt, bstba, bstbb⟩ := bstb
                obtain ⟨hbmh, hokba, hokbb⟩ := hokb
                obtain ⟨balB1, balB2, balba, balbb⟩ := balb
                have sba : stored_height ba = real_height ba := stored_eq_real hokba
                have sbb : stored_height bb = real_height bb := stored_eq_real hokbb
                have hbmk : strcmp bm k = Ordering.lt :=
                  hl2k bm (Or.inr (Or.inr (Or.inr (Or.inl rfl))))
                have habm : allKeys (fun x => strcmp x bm = Ordering.lt) a :=
                  allKeys_iff.mpr
                    (fun x hx => strcmp_trans (allKeys_iff.mp bstA x hx) hmbm)
                have hrbm : allKeys (fun x => strcmp bm x = Ordering.lt) r :=
                  allKeys_iff.mpr
                    (fun x hx => strcmp_trans hbmk (allKeys_iff.mp bstKR x hx))
                have hbbk : allKeys (fun x => strcmp x k = Ordering.lt) bb :=
                  allKeys_iff.mpr (fun x hx => hmemB x (Or.inr (Or.inr hx)))
                rw [rebalance_case_LR
                    (AVLTree.node a m mv am (AVLTree.node ba bm bv bm2 bb)) k v h r key
                    (by simp only [stored_height_node]; rw [sr]; omega) hkm,
                  left_rotate_node, right_rotate_node]
                simp only [stored_height_node]
                rw [sa, sba, sbb, sr]
                refine ⟨⟨⟨⟨habm, hmbm, bstBAlt⟩, ⟨bstBBgt, hbmk, hrbm⟩,
                    ⟨bstA, bstBA, bsta, bstba⟩, ⟨hbbk, bstKR, bstbb, bstr⟩⟩,
                  ⟨by simp [real_height], ⟨by simp [real_height], hoka, hokba⟩,
                    by simp [real_height], hokbb, hokr⟩,
                  by simp only [real_height]; omega, by simp only [real_height]; omega,
                  ⟨by omega, by omega, bala, balba⟩,
                  ⟨by omega, by omega, balbb, balr⟩⟩, ?_, ?_, ?_, ?_, ?_⟩
                · simp only [real_height]; omega
                · simp only [real_height]; omega
                · intro hkt; exact absurd hkt hknt
                · intro _ hgr; exfalso; simp only [real_height] at hgr; omega
                · intro x
                  have hx := hmem x
                  simp only [hasKey] at hx ⊢
                  exact mem_shuffle3 hx
    | gt =>
      obtain ⟨wfr2, hge, hle, hmemh, hgs, hmem⟩ := ihr ⟨bstr, hokr, balr⟩
      clear ihl ihr
      have hins : avl_insert (AVLTree.node l k v h r) key fresh upd
          = rebalance_after_insert
              (.node l k v h (avl_insert r key fresh upd)) key := by
        simp only [avl_insert, hc]
      rw [hins]
      clear hins
      generalize hR : avl_insert r key fresh upd = r2 at wfr2 hge hle hmemh hgs hmem ⊢
      obtain ⟨bstr2, hokr2, balr2⟩ := wfr2
      have sr2 : stored_height r2 = real_height r2 := stored_eq_real hokr2
      have hck : strcmp k key = Ordering.lt := strcmp_lt_iff_gt.mpr hc
      have hkne : key ≠ k := fun he => (strcmp_ne_of_lt hck) he.symm
      have hkl : ¬ hasKey l key := fun hx =>
        strcmp_not_lt_self key (strcmp_trans (allKeys_iff.mp bstKL key hx) hck)
      have hr2k : ∀ x, hasKey r2 x → strcmp k x = Ordering.lt := by
        intro x hx
        rcases (hmem x).mp hx with h1 | rfl
        · exact allKeys_iff.mp bstKR x h1
        · exact hck
      have hcase : real_height r2 = real_height r ∨
          real_height r2 = real_height r + 1 := by omega
      rcases hcase with hA | hB
      · -- the right subtree kept its height: no rotation
        rw [rebalance_no_rotation l k v h r2 key (by omega) (by omega), sl, sr2]
        refine ⟨⟨⟨bstKL, allKeys_iff.mpr hr2k, bstl, bstr2⟩,
          ⟨rfl, hokl, hokr2⟩, by omega, by omega, ball, balr2⟩, ?_, ?_, ?_, ?_, ?_⟩
        · simp only [real_height]; omega
        · simp only [real_height]; omega
        · intro _; simp only [real_height]; omega
        · intro _ hgr; exfalso; simp only [real_height] at hgr; omega
        · intro x
          have hx := hmem x
          simp only [hasKey] at hx ⊢
          exact mem_shuffle2r hx
      · -- the right subtree grew
        have hknr : ¬ hasKey r key := fun hx => by have := hmemh hx; omega
        have hknt : ¬ hasKey (AVLTree.node l k v h r) key := by
          simp only [hasKey]
          push_neg
          exact ⟨hkl, hkne, hknr⟩
        rcases (by omega : real_height r ≤ real_height l ∨
            real_height r = real_height l + 1) with hB1 | hB2
        · -- still within tolerance: no rotation
          rw [rebalance_no_rotation l k v h r2 key (by omega) (by omega), sl, sr2]
          refine ⟨⟨⟨bstKL, allKeys_iff.mpr hr2k, bstl, bstr2⟩,
            ⟨rfl, hokl, hokr2⟩, by omega, by omega, ball, balr2⟩, ?_, ?_, ?_, ?_, ?_⟩
          · simp only [real_height]; omega
          · simp only [real_height]; omega
          · intro hkt; exact absurd hkt hknt
          · intro _ hgr
            simp only [real_height] at hgr
            simp only [GrowShape]
            exact Or.inr (Or.inr ⟨hc, by omega⟩)
          · intro x
            have hx := hmem x
            simp only [hasKey] at hx ⊢
            exact mem_shuffle2r hx
        · -- balance factor reaches minus two: a rotation fires
          have hgsr : GrowShape key r2 := hgs hknr hB
          cases r2 with
          | leaf => simp [GrowShape] at hgsr
          | node a m mv am b =>
            simp only [real_height] at hB
            simp only [GrowShape] at hgsr
            obtain ⟨bstA, bstB, bsta, bstb⟩ := bstr2
            obtain ⟨ham, hoka, hokb⟩ := hokr2
            obtain ⟨balA1, balA2, bala, balb⟩ := balr2
            have hkm : strcmp k m = Ordering.lt := hr2k m (Or.inr (Or.inl rfl))
            have hmemA : ∀ x, hasKey a x → strcmp k x = Ordering.lt :=
              fun x hx => hr2k x (Or.inl hx)
            have hmemB : ∀ x, hasKey b x → strcmp k x = Ordering.lt :=
              fun x hx => hr2k x (Or.inr (Or.inr hx))
            have sa : stored_height a = real_height a := stored_eq_real hoka
            have sb : stored_height b = real_height b := stored_eq_real hokb
            rcases hgsr with ⟨hmky, rfl, rfl⟩ | ⟨hkm2, hab⟩ | ⟨hkm2, hba⟩
            · exfalso; simp only [real_height] at hB; omega
            · -- right-left: double rotation
              cases a with
              | leaf => exfalso; simp only [real_height] at hab; omega
              | node aa an av an2 ab =>
                simp only [real_height] at hab hB ham balA1 balA2
                obtain ⟨bstAA, hanm, bstAB⟩ := bstA
                obtain ⟨bstAAlt, bstABgt, bstaa, bstab⟩ := bsta
                obtain ⟨hanh, hokaa, hokab⟩ := hoka
                obtain ⟨balB1, balB2, balaa, balab⟩ := bala
                have saa : stored_height aa = real_height aa := stored_eq_real hokaa
                have sab : stored_height ab = real_height ab := stored_eq_real hokab
                have hkan : strcmp k an = Ordering.lt :=
                  hr2k an (Or.inl (Or.inr (Or.inl rfl)))
                have hlan : allKeys (fun x => strcmp x an = Ordering.lt) l :=
                  allKeys_iff.mpr
                    (fun x hx => strcmp_trans (allKeys_iff.mp bstKL x hx) hkan)
                have hban : allKeys (fun x => strcmp an x = Ordering.lt) b :=
                  allKeys_iff.mpr
                    (fun x hx => strcmp_trans hanm (allKeys_iff.mp bstB x hx))
                have hkaa : allKeys (fun x => strcmp k x = Ordering.lt) aa :=
                  allKeys_iff.mpr (fun x hx => hmemA x (Or.inl hx))
                rw [rebalance_case_RL l k v h
                    (AVLTree.node (AVLTree.node aa an av an2 ab) m mv am b) key
                    (by simp only [stored_height_node]; rw [sl]; omega) hkm2,
                  right_rotate_node, left_rotate_node]
                simp only [stored_height_node]
                rw [sl, saa, sab, sb]
                refine ⟨⟨⟨⟨hlan, hkan, bstAAlt⟩, ⟨bstABgt, hanm, hban⟩,
                    ⟨bstKL, hkaa, bstl, bstaa⟩, ⟨bstAB, bstB, bstab, bstb⟩⟩,
                  ⟨by simp [real_height], ⟨by simp [real_height], hokl, hokaa⟩,
                    by simp [real_height], hokab, hokb⟩,
                  by simp only [real_height]; omega, by simp only [real_height]; omega,
                  ⟨by omega, by omega, ball, balaa⟩,
                  ⟨by omega, by omega, balab, balb⟩⟩, ?_, ?_, ?_, ?_, ?_⟩
                · simp only [real_height]; omega
                · simp only [real_height]; omega
                · intro hkt; exact absurd hkt hknt
                · intro _ hgr; exfalso; simp only [real_height] at hgr; omega
                · intro x
                  have hx := hmem x
                  simp only [hasKey] at hx ⊢
                  exact mem_shuffle3r hx
            · -- right-right: single left rotation
              rw [rebalance_case_RR l k v h (AVLTree.node a m mv am b) key
                  (by simp only [stored_height_node]; rw [sl]; omega) hkm2,
                left_rotate_node]
              rw [sl, sa, sb]
              refine ⟨⟨⟨?_, bstB, ⟨bstKL, allKeys_iff.mpr hmemA, bstl, bsta⟩, bstb⟩,
                ⟨by simp [real_height], ⟨by simp [real_height], hokl, hoka⟩, hokb⟩,
                by simp only [real_height]; omega, by simp only [real_height]; omega,
                ⟨by omega, by omega, ball, bala⟩, balb⟩, ?_, ?_, ?_, ?_, ?_⟩
              · refine allKeys_iff.mpr ?_
                intro x hx
                simp only [hasKey] at hx
                rcases hx with hx | rfl | hx
                · exact strcmp_trans (allKeys_iff.mp bstKL x hx) hkm
                · exact hkm
                · exact allKeys_iff.mp bstA x hx
              · simp only [real_height]; omega
              · simp only [real_height]; omega
              · intro hkt; exact absurd hkt hknt
              · intro _ hgr; exfalso; simp only [real_height] at hgr; omega
              · intro x
                have hx := hmem x
                simp only [hasKey] at hx ⊢
                exact mem_shuffler hx

theorem WF_leaf : WF (leaf : AVLTree α) := ⟨trivial, trivial, trivial⟩

/-- The duplicate branch of the insertion is taken exactly for a key already
present (this is where `add_rate_node` prints its duplicate error). -/
theorem insert_hits_existing_iff (key : List Nat) :
    ∀ t : AVLTree α, isBST t →
      (insert_hits_existing t key = true ↔ hasKey t key) := by
  intro t
  induction t with
  | leaf => intro _; simp [insert_hits_existing, hasKey]
  | node l k v h r ihl ihr =>
    intro hbst
    obtain ⟨bstKL, bstKR, bstl, bstr⟩ := hbst
    cases hc : strcmp key k with
    | eq =>
      have hkeq : key = k := strcmp_eq_iff.mp hc
      simp only [insert_hits_existing, hc, hasKey]
      simp [hkeq]
    | lt =>
      have hkne : key ≠ k := strcmp_ne_of_lt hc
      have hkr : ¬ hasKey r key := fun hx =>
        strcmp_not_lt_self key (strcmp_trans hc (allKeys_iff.mp bstKR key hx))
      simp only [insert_hits_existing, hc, hasKey]
      rw [ihl bstl]
      constructor
      · exact fun hx => Or.inl hx
      · rintro (hx | rfl | hx)
        · exact hx
        · exact absurd rfl hkne
        · exact absurd hx hkr
    | gt =>
      have hck : strcmp k key = Ordering.lt := strcmp_lt_iff_gt.mpr hc
      have hkne : key ≠ k := fun he => strcmp_ne_of_lt hck he.symm
      have hkl : ¬ hasKey l key := fun hx =>
        strcmp_not_lt_self key (strcmp_trans (allKeys_iff.mp bstKL key hx) hck)
      simp only [insert_hits_existing, hc, hasKey]
      rw [ihr bstr]
      constructor
      · exact fun hx => Or.inr (Or.inr hx)
      · rintro (hx | rfl | hx)
        · exact absurd hx hkl
        · exact absurd rfl hkne
        · exact hx

/-- Inserting an already present key with the identity payload update (the
rate tree's case) returns the tree unchanged, as a value: the equal-key
branch returns the node as is, and on the way back up every height
recomputation reproduces the stored height and no rotation fires. -/
theorem avl_insert_mem_id (key : List Nat) (fresh : α) :
    ∀ t : AVLTree α, WF t → hasKey t key →
      avl_insert t key fresh id = t := by
  intro t
  induction t with
  | leaf => intro _ hk; exact absurd hk (by simp [hasKey])
  | node l k v h r ihl ihr =>
    intro hwf hk
    simp only [WF, isBST, heightsOK, isBalanced] at hwf
    obtain ⟨⟨bstKL, bstKR, bstl, bstr⟩, ⟨hh, hokl, hokr⟩, bal1, bal2, ball, balr⟩ := hwf
    have sl : stored_height l = real_height l := stored_eq_real hokl
    have sr : stored_height r = real_height r := stored_eq_real hokr
    cases hc : strcmp key k with
    | eq => simp only [avl_insert, hc]; rfl
    | lt =>
      have hkr : ¬ hasKey r key := fun hx =>
        strcmp_not_lt_self key (strcmp_trans hc (allKeys_iff.mp bstKR key hx))
      have hkl : hasKey l key := by
        rcases hk with hx | rfl | hx
        · exact hx
        · exact absurd hc (strcmp_not_lt_self key)
        · exact absurd hx hkr
      have heq : avl_insert l key fresh id = l := ihl ⟨bstl, hokl, ball⟩ hkl
      simp only [avl_insert, hc, heq]
      rw [rebalance_no_rotation l k v h r key (by omega) (by omega), sl, sr, hh]
    | gt =>
      have hck : strcmp k key = Ordering.lt := strcmp_lt_iff_gt.mpr hc
      have hkl : ¬ hasKey l key := fun hx =>
        strcmp_not_lt_self key (strcmp_trans (allKeys_iff.mp bstKL key hx) hck)
      have hkr : hasKey r key := by
        rcases hk with hx | rfl | hx
        · exact absurd hx hkl
        · exact absurd hck (strcmp_not_lt_self key)
        · exact hx
      have heq : avl_insert r key fresh id = r := ihr ⟨bstr, hokr, balr⟩ hkr
      simp only [avl_insert, hc, heq]
      rw [rebalance_no_rotation l k v h r key (by omega) (by omega), sl, sr, hh]

theorem allVals_right_rotate (p : α → Prop) (t : AVLTree α) :
    allVals p (right_rotate t) ↔ allVals p t := by
  match t with
  | .leaf => exact Iff.rfl
  | .node .leaf k v h r => exact Iff.rfl
  | .node (.node ll lk lv lh lr) k v h r =>
    simp only [right_rotate, allVals]
    tauto

theorem allVals_left_rotate (p : α → Prop) (t : AVLTree α) :
    allVals p (left_rotate t) ↔ allVals p t := by
  match t with
  | .leaf => exact Iff.rfl
  | .node l k v h .leaf => exact Iff.rfl
  | .node l k v h (.node rl rk rv rh rr) =>
    simp only [left_rotate, allVals]
    tauto

theorem allVals_rebalance (p : α → Prop) (t : AVLTree α) (key : List Nat) :
    allVals p (rebalance_after_insert t key) ↔ allVals p t := by
  match t with
  | .leaf => exact Iff.rfl
  | .node l k v h r =>
    simp only [rebalance_after_insert]
    split_ifs <;>
      simp [allVals_right_rotate, allVals_left_rotate, allVals]

/-- If the fresh payload satisfies `p` and the payload update always
produces a payload satisfying `p`, insertion preserves `p` on every stored
payload. -/
theorem avl_insert_allVals (p : α → Prop) (key : List Nat) (fresh : α)
    (upd : α → α) (hf : p fresh) (hu : ∀ v, p (upd v)) :
    ∀ t : AVLTree α, allVals p t → allVals p (avl_insert t key fresh upd) := by
  intro t
  induction t with
  | leaf => intro _; exact ⟨trivial, hf, trivial⟩
  | node l k v h r ihl ihr =>
    intro hall
    obtain ⟨hal, hv, har⟩ := hall
    cases hc : strcmp key k with
    | eq => simp only [avl_insert, hc]; exact ⟨hal, hu v, har⟩
    | lt =>
      simp only [avl_insert, hc]
      rw [allVals_rebalance]
      exact ⟨ihl hal, hv, har⟩
    | gt =>
      simp only [avl_insert, hc]
      rw [allVals_rebalance]
      exact ⟨hal, hv, ihr har⟩

/-- In-order traversal of a search-ordered tree visits the keys in strictly
ascending `strcmp` order. -/
theorem keys_sorted_of_isBST :
    ∀ t : AVLTree α, isBST t →
      List.Chain' (fun a b => strcmp a b = Ordering.lt) (keys t) := by
  intro t
  induction t with
  | leaf => intro _; simp [keys, inorder]
  | node l k v h r ihl ihr =>
    intro hbst
    obtain ⟨bstKL, bstKR, bstl, bstr⟩ := hbst
    have hkeys : keys (AVLTree.node l k v h r) = keys l ++ k :: keys r := by
      simp [keys, inorder]
    rw [hkeys, List.chain'_append]
    refine ⟨ihl bstl, ?_, ?_⟩
    · rw [List.chain'_cons']
      refine ⟨?_, ihr bstr⟩
      intro y hy
      exact allKeys_iff.mp bstKR y
        (hasKey_iff_mem_keys.mpr (List.mem_of_mem_head? hy))
    · intro x hx y hy
      obtain ⟨hne, hxeq⟩ := List.mem_getLast?_eq_getLast hx
      have hyk : k = y := by simpa using hy
      subst hyk
      subst hxeq
      exact allKeys_iff.mp bstKL _
        (hasKey_iff_mem_keys.mpr (List.getLast_mem hne))

theorem keys_nodup_of_isBST (t : AVLTree α) (h : isBST t) : (keys t).Nodup := by
  haveI : IsTrans (List Nat) (fun a b => strcmp a b = Ordering.lt) :=
    ⟨fun _ _ _ => strcmp_trans⟩
  have hp := (List.chain'_iff_pairwise).mp (keys_sorted_of_isBST t h)
  exact hp.imp (fun hxy => strcmp_ne_of_lt hxy)

end AVLTree

theorem last_hit_succ {β : Type} (g : Nat → Option β) (n : Nat) :
    last_hit g (n + 1)
      = match g (n + 1) with
        | some x => some x
        | none => last_hit g n := by
  unfold last_hit
  rw [List.range_succ, List.foldl_append, List.foldl_cons, List.foldl_nil]

theorem last_hit_succ_none {β : Type} {g : Nat → Option β} {n : Nat}
    (hg : g (n + 1) = none) : last_hit g (n + 1) = last_hit g n := by
  rw [last_hit_succ, hg]

theorem last_hit_succ_some {β : Type} {g : Nat → Option β} {n : Nat} {y : β}
    (hg : g (n + 1) = some y) : last_hit g (n + 1) = some y := by
  rw [last_hit_succ, hg]

/-- `last_hit` is `none` exactly when every attempt fails, and a `some`
result is the hit at the greatest hitting attempt length. -/
theorem last_hit_spec {β : Type} (g : Nat → Option β) :
    ∀ n : Nat,
      (last_hit g n = none ↔ ∀ j, 1 ≤ j → j ≤ n → g j = none) ∧
      (∀ x, last_hit g n = some x →
        ∃ m, 1 ≤ m ∧ m ≤ n ∧ g m = some x ∧
          ∀ j, m < j → j ≤ n → g j = none) := by
  intro n
  induction n with
  | zero =>
    constructor
    · constructor
      · intro _ j h1 h2; omega
      · intro _; rfl
    · intro x hx; cases hx
  | succ n ih =>
    cases hg : g (n + 1) with
    | none =>
      rw [last_hit_succ_none hg]
      constructor
      · rw [ih.1]
        constructor
        · intro hall j h1 h2
          rcases Nat.lt_or_ge j (n + 1) with hj | hj
          · exact hall j h1 (by omega)
          · have hje : j = n + 1 := by omega
            rw [hje]; exact hg
        · intro hall j h1 h2
          exact hall j h1 (by omega)
      · intro x hx
        obtain ⟨m, hm1, hm2, hm3, hm4⟩ := ih.2 x hx
        refine ⟨m, hm1, by omega, hm3, ?_⟩
        intro j hj1 hj2
        rcases Nat.lt_or_ge j (n + 1) with hj | hj
        · exact hm4 j hj1 (by omega)
        · have hje : j = n + 1 := by omega
          rw [hje]; exact hg
    | some y =>
      rw [last_hit_succ_some hg]
      constructor
      · constructor
        · intro hx; cases hx
        · intro hall
          have hcontra := hall (n + 1) (by omega) (by omega)
          rw [hg] at hcontra; cases hcontra
      · intro x hx
        have hxy : y = x := by injection hx
        subst hxy
        exact ⟨n + 1, by omega, by omega, hg, fun j hj1 hj2 => by omega⟩

theorem search_by_longest_eq_last_hit (root : AVLTree ℚ)
    (callee_number : List Nat) :
    search_by_longest_region_code_match root callee_number
      = last_hit (fun j => search_rate_tree root (callee_number.take j))
          callee_number.length := by
  unfold search_by_longest_region_code_match last_hit
  congr 1
  funext best i
  simp only []
  cases search_rate_tree root (callee_number.take (i + 1)) <;> rfl

/-- The exact lookup misses exactly the keys not stored (on a
search-ordered tree). -/
theorem search_rate_tree_none_iff :
    ∀ t : AVLTree ℚ, AVLTree.isBST t → ∀ q : List Nat,
      (search_rate_tree t q = none ↔ ¬ AVLTree.hasKey t q) := by
  intro t
  induction t with
  | leaf => intro _ q; simp [search_rate_tree, AVLTree.hasKey]
  | node l k v h r ihl ihr =>
    intro hbst q
    obtain ⟨bstKL, bstKR, bstl, bstr⟩ := hbst
    cases hc : strcmp q k with
    | eq =>
      have hqk : q = k := strcmp_eq_iff.mp hc
      simp only [search_rate_tree, hc]
      simp [AVLTree.hasKey, hqk]
    | lt =>
      have hqk : q ≠ k := strcmp_ne_of_lt hc
      have hqr : ¬ AVLTree.hasKey r q := fun hx =>
        AVLTree.strcmp_not_lt_self q
          (strcmp_trans hc (AVLTree.allKeys_iff.mp bstKR q hx))
      simp only [search_rate_tree, hc]
      rw [ihl bstl q]
      simp only [AVLTree.hasKey]
      constructor
      · rintro hnl (hx | rfl | hx)
        · exact hnl hx
        · exact hqk rfl
        · exact hqr hx
      · intro hn hl
        exact hn (Or.inl hl)
    | gt =>
      have hck : strcmp k q = Ordering.lt := strcmp_lt_iff_gt.mpr hc
      have hqk : q ≠ k := fun he => strcmp_ne_of_lt hck he.symm
      have hql : ¬ AVLTree.hasKey l q := fun hx =>
        AVLTree.strcmp_not_lt_self q
          (strcmp_trans (AVLTree.allKeys_iff.mp bstKL q hx) hck)
      simp only [search_rate_tree, hc]
      rw [ihr bstr q]
      simp only [AVLTree.hasKey]
      constructor
      · rintro hnr (hx | rfl | hx)
        · exact hql hx
        · exact hqk rfl
        · exact hnr hx
      · intro hn hr
        exact hn (Or.inr (Or.inr hr))

/-- A successful exact lookup returns the searched key together with a rate
stored for it. -/
theorem search_rate_tree_some :
    ∀ t : AVLTree ℚ, ∀ q : List Nat, ∀ p : List Nat × ℚ,
      search_rate_tree t q = some p →
      p.1 = q ∧ (p.1, p.2) ∈ AVLTree.inorder t := by
  intro t
  induction t with
  | leaf => intro q p hp; cases hp
  | node l k v h r ihl ihr =>
    intro q p hp
    simp only [search_rate_tree] at hp
    cases hc : strcmp q k with
    | eq =>
      rw [hc] at hp
      have hqk : q = k := strcmp_eq_iff.mp hc
      have hpkv : p = (k, v) := by injection hp with hp2; exact hp2.symm
      subst hpkv
      simp [AVLTree.inorder, hqk]
    | lt =>
      rw [hc] at hp
      obtain ⟨h1, h2⟩ := ihl q p hp
      exact ⟨h1, by simp [AVLTree.inorder]; tauto⟩
    | gt =>
      rw [hc] at hp
      obtain ⟨h1, h2⟩ := ihr q p hp
      exact ⟨h1, by simp [AVLTree.inorder]; tauto⟩

/-- Trees built by `add_rate_node` sequences are well-formed. -/
theorem build_rate_tree_WF (entries : List (List Nat × ℚ)) :
    AVLTree.WF (build_rate_tree entries) := by
  have hgen : ∀ (es : List (List Nat × ℚ)) (t : AVLTree ℚ), AVLTree.WF t →
      AVLTree.WF (es.foldl (fun t e => add_rate_node t e.1 e.2) t) := by
    intro es
    induction es with
    | nil => intro t ht; exact ht
    | cons e es ih =>
      intro t ht
      exact ih _ ((AVLTree.avl_insert_sound e.1 e.2 id t ht).1)
  exact hgen entries AVLTree.leaf AVLTree.WF_leaf

/-- Trees built by `add_user_node` sequences are well-formed. -/
theorem build_user_tree_WF (rate_root : AVLTree ℚ)
    (records : List CallRecord) :
    AVLTree.WF (build_user_tree rate_root records) := by
  have hgen : ∀ (cs : List CallRecord) (t : AVLTree UserData),
      AVLTree.WF t →
      AVLTree.WF (cs.foldl
        (fun t c => add_user_node t c.caller c.callee c.duration c.year
          c.month c.day rate_root) t) := by
    intro cs
    induction cs with
    | nil => intro t ht; exact ht
    | cons c cs ih =>
      intro t ht
      exact ih _ ((AVLTree.avl_insert_sound c.caller _ _ t ht).1)
  exact hgen records AVLTree.leaf AVLTree.WF_leaf

/-- The accumulation loop of `calculate_user_stats`, solved in closed
form. -/
theorem user_stats_foldl (l : List Call) :
    ∀ (p0 : ℚ) (d0 n0 : Nat),
      l.foldl
        (fun (acc : ℚ × Nat × Nat) c =>
          (acc.1 + c.price, acc.2.1 + c.duration, acc.2.2 + 1)) (p0, d0, n0)
      = (p0 + (l.map Call.price).sum, d0 + (l.map Call.duration).sum,
          n0 + l.length) := by
  induction l with
  | nil => intro p0 d0 n0; simp
  | cons c cs ih =>
    intro p0 d0 n0
    simp only [List.foldl_cons, List.map_cons, List.sum_cons, List.length_cons]
    rw [ih]
    simp only [Prod.mk.injEq]
    refine ⟨by ring, by omega, by omega⟩

/-- `calculate_user_stats` always re-establishes the totals/history
agreement, whatever the previous totals were. -/
theorem calculate_user_stats_consistent (user : UserData) :
    stats_consistent (calculate_user_stats user) := by
  simp only [calculate_user_stats, stats_consistent, user_stats_foldl]
  simp

/-- The scan loop of `insert_call`, in closed form: the new node lands
directly before the first strictly greater node (equivalently, after the
maximal leading run of nodes with datetime at most the new node's), or at
the tail when every node is at most the new node's datetime. -/
theorem insert_call_scan_spec (new_node : Call) :
    ∀ l : List Call, l ≠ [] →
      insert_call_scan new_node l
        = l.takeWhile
            (fun c => decide
              (get_call_node_datetime c ≤ get_call_node_datetime new_node))
          ++ new_node ::
            l.dropWhile
              (fun c => decide
                (get_call_node_datetime c ≤ get_call_node_datetime new_node)) := by
  intro l
  induction l with
  | nil => intro hne; exact absurd rfl hne
  | cons c cs ih =>
    intro _
    by_cases hc : get_call_node_datetime new_node < get_call_node_datetime c
    · have hpc : ¬ (get_call_node_datetime c ≤ get_call_node_datetime new_node) := by
        omega
      simp [insert_call_scan, hc, List.takeWhile_cons, List.dropWhile_cons, hpc]
    · have hpc : get_call_node_datetime c ≤ get_call_node_datetime new_node := by
        omega
      cases cs with
      | nil =>
        simp [insert_call_scan, hc, List.takeWhile_cons, List.dropWhile_cons, hpc]
      | cons d ds =>
        have hstep : insert_call_scan new_node (c :: d :: ds)
            = c :: insert_call_scan new_node (d :: ds) := by
          simp only [insert_call_scan, if_neg hc]
        rw [hstep, ih (by simp)]
        simp [List.takeWhile_cons, List.dropWhile_cons, hpc]

/-- `insert_call_list` realises exactly the spec's insertion position. -/
theorem insert_call_list_eq_spec (new_node : Call) (head : List Call) :
    insert_call_list new_node head
      = insert_call_position_spec new_node head := by
  cases head with
  | nil => rfl
  | cons hd rest =>
    by_cases hle :
        get_call_node_datetime new_node ≤ get_call_node_datetime hd
    · simp [insert_call_list, insert_call_position_spec, hle]
    · simp only [insert_call_list, insert_call_position_spec, if_neg hle]
      exact insert_call_scan_spec new_node (hd :: rest) (by simp)

/-- Inserting at the spec position preserves the chronological
invariant. -/
theorem chronological_insert_spec (new_node : Call) :
    ∀ l : List Call, chronological l →
      chronological (insert_call_position_spec new_node l) := by
  have hmid : ∀ l : List Call, chronological l →
      chronological
        (l.takeWhile
            (fun c => decide
              (get_call_node_datetime c ≤ get_call_node_datetime new_node))
          ++ new_node ::
            l.dropWhile
              (fun c => decide
                (get_call_node_datetime c ≤ get_call_node_datetime new_node))) := by
    intro l hch
    rw [chronological, List.chain'_append]
    refine ⟨ List.Chain'.prefix hch (List.takeWhile_prefix _), ?_, ?_⟩
    · rw [List.chain'_cons']
      constructor
      · intro y hy
        have hnot := List.head?_dropWhile_not
          (fun c => decide
            (get_call_node_datetime c ≤ get_call_node_datetime new_node)) l
        rw [hy] at hnot
        simp at hnot
        omega
      · exact hch.suffix (List.dropWhile_suffix _)
    · intro x hx y hy
      have hyn : new_node = y := by simpa using hy
      subst hyn
      obtain ⟨hne, hxeq⟩ := List.mem_getLast?_eq_getLast hx
      subst hxeq
      have hmem := List.getLast_mem hne
      have := List.mem_takeWhile_imp hmem
      simpa using this
  intro l hch
  cases l with
  | nil => simp [insert_call_position_spec, chronological]
  | cons hd rest =>
    by_cases hle :
        get_call_node_datetime new_node ≤ get_call_node_datetime hd
    · simp only [insert_call_position_spec, if_pos hle]
      rw [chronological, List.chain'_cons']
      constructor
      · intro y hy
        have hyh : hd = y := by simpa using hy
        subst hyh
        exact hle
      · exact hch
    · simp only [insert_call_position_spec, if_neg hle]
      exact hmid (hd :: rest) hch

/-- The inserted node is in the resulting list. -/
theorem mem_insert_call_list (new_node : Call) (head : List Call) :
    new_node ∈ insert_call_list new_node head := by
  rw [insert_call_list_eq_spec]
  cases head with
  | nil => simp [insert_call_position_spec]
  | cons hd rest =>
    by_cases hle :
        get_call_node_datetime new_node ≤ get_call_node_datetime hd
    · simp [insert_call_position_spec, hle]
    · simp [insert_call_position_spec, hle]

theorem build_call_list_chronological (rate_root : AVLTree ℚ)
    (records : List CallRecord) :
    chronological (build_call_list rate_root records) := by
  have hgen : ∀ (cs : List CallRecord) (l : List Call), chronological l →
      chronological (cs.foldl
        (fun l c =>
          (insert_call l c.callee c.duration c.year c.month c.day
            rate_root).list) l) := by
    intro cs
    induction cs with
    | nil => intro l hl; exact hl
    | cons c cs ih =>
      intro l hl
      refine ih _ ?_
      show chronological (insert_call_list _ l)
      rw [insert_call_list_eq_spec]
      exact chronological_insert_spec _ l hl
  exact hgen records [] (by simp [chronological])

/-- In a duplicate-free list, a present element is counted exactly once. -/
theorem count_eq_one_of_nodup_mem {x : List Nat} :
    ∀ {l : List (List Nat)}, l.Nodup → x ∈ l → l.count x = 1 := by
  intro l
  induction l with
  | nil => intro _ hm; cases hm
  | cons a l ih =>
    intro hn hm
    obtain ⟨hna, hnl⟩ := List.nodup_cons.mp hn
    rcases List.mem_cons.mp hm with rfl | hml
    · rw [List.count_cons_self]
      have hz : l.count x = 0 := by
        rw [List.count_eq_zero]
        exact hna
      omega
    · have hne : x ≠ a := fun he => hna (he ▸ hml)
      rw [List.count_cons_of_ne hne]
      exact ih hnl hml

/-- On the three-entry example catalog shape, whatever the three rates are,
the longest-prefix match for "123456789" returns the "123" entry: all three
prefix lookups hit and the length-3 hit is kept last. -/
theorem example_match_generic (r1 r2 r3 : ℚ) :
    search_by_longest_region_code_match
        (build_rate_tree [(str1, r1), (str12, r2), (str123, r3)])
        str123456789
      = some (str123, r3) := rfl

/-- C1: for every rate catalog and callee number, the longest-prefix match
tries every leading substring (length 1 up to the full length) with an
exact tree lookup, keeps the hit found at the greatest attempt length and
returns it; it returns no match exactly when no leading substring is a
stored region code; in particular, on the catalog
{"1": 0.10, "12": 0.05, "123": 0.02} with callee "123456789" it returns
the "123" entry. -/
theorem C1_longest_prefix_match (root : AVLTree ℚ) (callee_number : List Nat)
    (hbst : AVLTree.isBST root) :
    (search_by_longest_region_code_match root callee_number = none ↔
      ∀ n, 1 ≤ n → n ≤ callee_number.length →
        ¬ AVLTree.hasKey root (callee_number.take n)) ∧
    (∀ rc rate,
      search_by_longest_region_code_match root callee_number
          = some (rc, rate) →
      ∃ m, 1 ≤ m ∧ m ≤ callee_number.length ∧
        rc = callee_number.take m ∧
        search_rate_tree root (callee_number.take m) = some (rc, rate) ∧
        ∀ j, m < j → j ≤ callee_number.length →
          search_rate_tree root (callee_number.take j) = none) ∧
    (∀ r1 r2 r3 : ℚ,
      search_by_longest_region_code_match
          (build_rate_tree [(str1, r1), (str12, r2), (str123, r3)])
          str123456789
        = some (str123, r3)) := by
  refine ⟨?_, ?_, ?_⟩
  · rw [search_by_longest_eq_last_hit, (last_hit_spec _ _).1]
    constructor
    · intro hall n h1 h2
      exact (search_rate_tree_none_iff root hbst _).mp (hall n h1 h2)
    · intro hall j h1 h2
      exact (search_rate_tree_none_iff root hbst _).mpr (hall j h1 h2)
  · intro rc rate hsome
    rw [search_by_longest_eq_last_hit] at hsome
    obtain ⟨m, hm1, hm2, hm3, hm4⟩ := (last_hit_spec _ _).2 _ hsome
    have hk := search_rate_tree_some root _ _ hm3
    exact ⟨m, hm1, hm2, hk.1, hm3, hm4⟩
  · exact example_match_generic

/-- Witness for C1: the example catalog is search-ordered, and the match on
it returns the "123" entry. -/
theorem C1_longest_prefix_match_witness :
    AVLTree.isBST example_rate_tree ∧
    search_by_longest_region_code_match example_rate_tree str123456789
      = some (str123, 1 / 50) :=
  ⟨(build_rate_tree_WF _).1,
    (C1_longest_prefix_match example_rate_tree str123456789
      (build_rate_tree_WF _).1).2.2 (1 / 10) (1 / 20) (1 / 50)⟩

/-- C2: after any sequence of insertions into the rate tree or the user
tree, every node's children differ in height by at most one, and every
stored height field is 1 plus the maximum of the children's heights (empty
subtree height 0). -/
theorem C2_avl_balance (entries : List (List Nat × ℚ))
    (rate_root : AVLTree ℚ) (records : List CallRecord) :
    (AVLTree.isBalanced (build_rate_tree entries) ∧
      AVLTree.heightsOK (build_rate_tree entries)) ∧
    (AVLTree.isBalanced (build_user_tree rate_root records) ∧
      AVLTree.heightsOK (build_user_tree rate_root records)) :=
  ⟨⟨(build_rate_tree_WF entries).2.2, (build_rate_tree_WF entries).2.1⟩,
    ⟨(build_user_tree_WF rate_root records).2.2,
      (build_user_tree_WF rate_root records).2.1⟩⟩

/-- C3: for every rate tree and user tree built by any insertion sequence,
in-order traversal yields the keys in strictly ascending `strcmp` order, the
trees satisfy the binary-search ordering invariant, and no key is stored
twice. -/
theorem C3_inorder_ascending (entries : List (List Nat × ℚ))
    (rate_root : AVLTree ℚ) (records : List CallRecord) :
    (List.Chain' (fun a b => strcmp a b = Ordering.lt)
        (AVLTree.keys (build_rate_tree entries)) ∧
      AVLTree.isBST (build_rate_tree entries) ∧
      (AVLTree.keys (build_rate_tree entries)).Nodup) ∧
    (List.Chain' (fun a b => strcmp a b = Ordering.lt)
        (AVLTree.keys (build_user_tree rate_root records)) ∧
      AVLTree.isBST (build_user_tree rate_root records) ∧
      (AVLTree.keys (build_user_tree rate_root records)).Nodup) :=
  ⟨⟨AVLTree.keys_sorted_of_isBST _ (build_rate_tree_WF entries).1,
      (build_rate_tree_WF entries).1,
      AVLTree.keys_nodup_of_isBST _ (build_rate_tree_WF entries).1⟩,
    ⟨AVLTree.keys_sorted_of_isBST _ (build_user_tree_WF rate_root records).1,
      (build_user_tree_WF rate_root records).1,
      AVLTree.keys_nodup_of_isBST _ (build_user_tree_WF rate_root records).1⟩⟩

/-- C4: every call history built by a sequence of `insert_call` operations
is chronologically ordered (adjacent keys non-decreasing); a single
insertion into an ordered list preserves the invariant; and the insertion
lands exactly at the spec's position (sole element of an empty list, at the
head on a less-or-equal key, otherwise directly before the first strictly
greater node or at the tail). -/
theorem C4_chronological_invariant (rate_root : AVLTree ℚ)
    (records : List CallRecord) (new_node : Call) (l : List Call)
    (hch : chronological l) :
    chronological (build_call_list rate_root records) ∧
    chronological (insert_call_list new_node l) ∧
    insert_call_list new_node l = insert_call_position_spec new_node l := by
  refine ⟨build_call_list_chronological rate_root records, ?_,
    insert_call_list_eq_spec new_node l⟩
  rw [insert_call_list_eq_spec]
  exact chronological_insert_spec new_node l hch

/-- Witness for C4 at the empty history and one concrete call. -/
theorem C4_chronological_invariant_witness :
    chronological ([] : List Call) ∧
    (chronological (build_call_list AVLTree.leaf []) ∧
      chronological (insert_call_list example_call_a []) ∧
      insert_call_list example_call_a []
        = insert_call_position_spec example_call_a []) :=
  ⟨by simp [chronological],
    C4_chronological_invariant AVLTree.leaf [] example_call_a []
      (by simp [chronological])⟩

/-- C5: in every user tree built by a sequence of call insertions, every
subscriber node's cached totals equal the aggregates recomputed from its
stored call history: `total_bill` is the sum of the stored prices,
`total_call_duration` the sum of the stored durations, and
`total_call_number` the number of stored calls. -/
theorem C5_stats_consistency (rate_root : AVLTree ℚ)
    (records : List CallRecord) :
    AVLTree.allVals stats_consistent (build_user_tree rate_root records) := by
  have hgen : ∀ (cs : List CallRecord) (t : AVLTree UserData),
      AVLTree.allVals stats_consistent t →
      AVLTree.allVals stats_consistent
        (cs.foldl
          (fun t c => add_user_node t c.caller c.callee c.duration c.year
            c.month c.day rate_root) t) := by
    intro cs
    induction cs with
    | nil => intro t ht; exact ht
    | cons c cs ih =>
      intro t ht
      refine ih _ ?_
      exact AVLTree.avl_insert_allVals stats_consistent c.caller _ _
        (calculate_user_stats_consistent _)
        (fun v => calculate_user_stats_consistent _) t ht
  exact hgen records AVLTree.leaf trivial

/-- C6: a second insert of a region code already present in a well-formed
rate tree is rejected: the tree is returned unchanged as a value (so the
original entry and rate are retained), the duplicate branch that reports
the failure is taken, and the tree holds exactly one node with that
region code. -/
theorem C6_duplicate_rejection (t : AVLTree ℚ) (region_code : List Nat)
    (rate2 : ℚ) (hwf : AVLTree.WF t)
    (hmem : AVLTree.hasKey t region_code) :
    add_rate_node t region_code rate2 = t ∧
    AVLTree.insert_hits_existing t region_code = true ∧
    (AVLTree.keys t).count region_code = 1 :=
  ⟨AVLTree.avl_insert_mem_id region_code rate2 t hwf hmem,
    (AVLTree.insert_hits_existing_iff region_code t hwf.1).mpr hmem,
    count_eq_one_of_nodup_mem (AVLTree.keys_nodup_of_isBST t hwf.1)
      (AVLTree.hasKey_iff_mem_keys.mp hmem)⟩

/-- Witness for C6: inserting region code "44" twice leaves one "44"
node, unchanged tree, and the duplicate report taken. -/
theorem C6_duplicate_rejection_witness :
    AVLTree.WF (build_rate_tree [(str44, 1 / 10)]) ∧
    AVLTree.hasKey (build_rate_tree [(str44, 1 / 10)]) str44 ∧
    (add_rate_node (build_rate_tree [(str44, 1 / 10)]) str44 (1 / 20)
        = build_rate_tree [(str44, 1 / 10)] ∧
      AVLTree.insert_hits_existing (build_rate_tree [(str44, 1 / 10)]) str44
        = true ∧
      (AVLTree.keys (build_rate_tree [(str44, 1 / 10)])).count str44 = 1) :=
  ⟨build_rate_tree_WF _, Or.inr (Or.inl rfl),
    C6_duplicate_rejection _ str44 (1 / 20) (build_rate_tree_WF _)
      (Or.inr (Or.inl rfl))⟩

/-- Pricing and warning behaviour of `insert_call`, independent of the
return status: a no-match call is stored with price 0 after the stderr
warning; a matched call is stored with price rate times duration and no
warning. -/
theorem insert_call_pricing (rate_root : AVLTree ℚ) (head : List Call)
    (callee_number : List Nat) (duration year month day : Nat) :
    (search_by_longest_region_code_match rate_root callee_number = none →
      (insert_call head callee_number duration year month day
          rate_root).warned_no_match = true ∧
      (insert_call head callee_number duration year month day
          rate_root).list
        = insert_call_list
            { callee := callee_number, duration := duration, year := year,
              month := month, day := day, price := 0 } head ∧
      ({ callee := callee_number, duration := duration, year := year,
          month := month, day := day, price := 0 } : Call)
        ∈ (insert_call head callee_number duration year month day
            rate_root).list) ∧
    (∀ rc rate,
      search_by_longest_region_code_match rate_root callee_number
          = some (rc, rate) →
      (insert_call head callee_number duration year month day
          rate_root).warned_no_match = false ∧
      (insert_call head callee_number duration year month day
          rate_root).list
        = insert_call_list
            { callee := callee_number, duration := duration, year := year,
              month := month, day := day, price := rate * duration } head ∧
      ({ callee := callee_number, duration := duration, year := year,
          month := month, day := day, price := rate * duration } : Call)
        ∈ (insert_call head callee_number duration year month day
            rate_root).list) := by
  constructor
  · intro hn
    simp only [insert_call, hn]
    simp [mem_insert_call_list]
  · intro rc rate hs
    simp only [insert_call, hs]
    simp [mem_insert_call_list]

/-- C7, settled against the code as written: the degraded-pricing part of
the claim holds — at the failing input the no-match call is stored with
price 0 and the warning is printed — but "inserting that call still
succeeds (it is not a failure)" does not: the empty-list initialization
branch of `insert_call` stores the node and then falls through to the
trailing `return 0` (the function's documented failure code), so every
subscriber's first call — rate match or not — is reported with status 0,
and status 1 is returned exactly when the list was already non-empty. -/
theorem C7_first_call_status_bug :
    ((insert_call [] str44 60 2024 3 5 example_rate_tree).list
        = [{ callee := str44, duration := 60, year := 2024, month := 3,
             day := 5, price := 0 }] ∧
      (insert_call [] str44 60 2024 3 5
          example_rate_tree).warned_no_match = true ∧
      (insert_call [] str44 60 2024 3 5 example_rate_tree).status = 0) ∧
    (∀ (rate_root : AVLTree ℚ) (head : List Call)
        (callee_number : List Nat) (duration year month day : Nat),
      (insert_call head callee_number duration year month day
          rate_root).status
        = match head with
          | [] => 0
          | _ :: _ => 1) := by
  constructor
  · exact ⟨by decide, by decide, rfl⟩
  · intro rate_root head callee_number duration year month day
    cases head <;> rfl

/-- C8: the tie-break for equal chronological keys is asymmetric: a new
call whose key equals the head's is inserted before the head (the head
test uses less-or-equal), while a new call whose key matches later entries
is placed after the existing run of keys at most its own — immediately
before the first strictly greater node. -/
theorem C8_equal_key_tie_break (new_node hd : Call) (t : List Call) :
    (get_call_node_datetime new_node = get_call_node_datetime hd →
      insert_call_list new_node (hd :: t) = new_node :: hd :: t) ∧
    (get_call_node_datetime hd < get_call_node_datetime new_node →
      insert_call_list new_node (hd :: t)
        = (hd :: t).takeWhile
            (fun c => decide
              (get_call_node_datetime c ≤ get_call_node_datetime new_node))
          ++ new_node ::
            (hd :: t).dropWhile
              (fun c => decide
                (get_call_node_datetime c
                  ≤ get_call_node_datetime new_node))) := by
  constructor
  · intro he
    simp [insert_call_list, le_of_eq he]
  · intro hlt
    rw [insert_call_list_eq_spec]
    simp [insert_call_position_spec, Nat.not_le.mpr hlt]

/-- Witness for C8: a call with the head's key lands before the head
(arrival order reversed); a call with the key of a later entry lands after
that entry. -/
theorem C8_equal_key_tie_break_witness :
    (get_call_node_datetime example_call_b
        = get_call_node_datetime example_call_a ∧
      insert_call_list example_call_b [example_call_a]
        = [example_call_b, example_call_a]) ∧
    (get_call_node_datetime example_call_x
        < get_call_node_datetime example_call_b ∧
      insert_call_list example_call_b [example_call_x, example_call_a]
        = [example_call_x, example_call_a, example_call_b]) :=
  ⟨⟨by decide,
      (C8_equal_key_tie_break example_call_b example_call_a []).1 (by decide)⟩,
    ⟨by decide,
      ((C8_equal_key_tie_break example_call_b example_call_x
          [example_call_a]).2 (by decide)).trans (by decide)⟩⟩

/-- C9 counterexample: invoking the report generators on a subscriber with
an empty call history does not abort — both return normally, refuting the
claim that the operation is fatal. -/
theorem C9_empty_history_counterexample :
    generate_monthly_cdr_files true [] ≠ ReportOutcome.fatalExit ∧
    generate_monthly_bill_files true [] ≠ ReportOutcome.fatalExit := by
  constructor
  · intro h
    simp [generate_monthly_cdr_files] at h
  · intro h
    simp [generate_monthly_bill_files] at h

/-- C9 (amended): on an empty call history the CDR generator prints its
no-calls warning to stderr and returns normally with nothing written, and
the bill generator returns normally with nothing written and no warning;
neither aborts. -/
theorem C9_empty_history_returns (open_ok : Bool) :
    generate_monthly_cdr_files open_ok [] = ReportOutcome.returned true 0 ∧
    generate_monthly_bill_files open_ok [] = ReportOutcome.returned false 0 := by
  constructor
  · rfl
  · simp [generate_monthly_bill_files]

/-- C10: `calculate_user_stats` derives the totals solely from the current
call list (its result is independent of the prior totals), and applying it
twice equals applying it once. -/
theorem C10_calculate_user_stats_idempotent :
    (∀ u w : UserData, u.call_list = w.call_list →
      calculate_user_stats u = calculate_user_stats w) ∧
    (∀ u : UserData,
      calculate_user_stats (calculate_user_stats u)
        = calculate_user_stats u) := by
  have h1 : ∀ u w : UserData, u.call_list = w.call_list →
      calculate_user_stats u = calculate_user_stats w := by
    intro u w h
    cases u with
    | mk ucl utb utd utn =>
      cases w with
      | mk wcl wtb wtd wtn =>
        obtain rfl : ucl = wcl := h
        rfl
  exact ⟨h1, fun u => h1 _ u rfl⟩

/-- Witness for C10 at two concrete users sharing a call list but with
different stale totals. -/
theorem C10_calculate_user_stats_idempotent_witness :
    example_user_stale.call_list = example_user_clean.call_list ∧
    calculate_user_stats example_user_stale
      = calculate_user_stats example_user_clean :=
  ⟨rfl,
    C10_calculate_user_stats_idempotent.1 example_user_stale
      example_user_clean rfl⟩
